import Mathlib

/-!
Verification of the fast-gitingest core (Rust) against its specification.

This file shallowly embeds the program logic of
`src/gitingest/src/utils/patterns.rs`, `src/gitingest/src/utils/files.rs`,
`src/gitingest/src/models.rs` and `src/gitingest/src/services.rs`:

* Paths are lists of components (`List String`); the (already materialized)
  filesystem, as seen by the `WalkDir` enumeration and by `is_file` /
  `is_dir` / `fs::metadata` queries, is a list of entries in walk order.
* Glob patterns are parsed into token lists; matching follows the default
  `globset` configuration used by the code (`literal_separator` disabled, so
  a `*` crosses path separators; consecutive `*`s collapse; a `[...]`
  character class must be closed, otherwise `Glob::new` fails, which is the
  pattern-error case of `build_glob_set`).  Character ranges and brace
  alternates are not needed by any pattern occurring in the development.
* Error payload strings are simplified to the offending pattern / path; the
  error constructors mirror `GitingestError`.
* `u64` sizes appear only in comparisons and sums and are modelled as `Nat`.
* The `concurrent_limit` / `batch_size` parameters of
  `scan_directory_lazy` only affect scheduling: results are merged into the
  `file_nodes` map keyed by path, so the merged map is the one obtained by
  processing each candidate file independently, which is how the scan is
  embedded.  The arbitrary iteration order of the intermediate `HashMap` /
  `HashSet` collections in `build_lazy_directory_tree` is made explicit: the
  builder takes the adjacency map as an association list (key order =
  iteration order) and a reordering `σ` for the subdirectory set.
  The concrete scan instantiates `σ := id`.
* `FileNodeLazy` is constructed in `files.rs` with fields
  name/path/relative_path/node_type/size/has_content/children/depth and its
  `ContentWriter` implementation is the one of `models.rs` (lines 102-127);
  the struct is embedded with exactly those fields.
-/

/-- `FileNodeType` from models.rs. -/
inductive FileNodeType
  | Directory
  | File
  | Symlink
deriving DecidableEq

/-- The lazy file node built by `scan_directory_lazy` (fields as constructed
in files.rs lines 468-477 and 533-542). -/
structure FileNodeLazy where
  name : String
  path : List String
  relative_path : String
  node_type : FileNodeType
  size : Nat
  has_content : Bool
  children : List FileNodeLazy
  depth : Nat

/-- `PatternMatcher` from models.rs: three independent pattern lists. -/
structure PatternMatcher where
  include_patterns : List String
  exclude_patterns : List String
  gitignore_patterns : List String
deriving DecidableEq

/-- The error variants of `GitingestError` reached by the embedded code
(payload text simplified to the offending pattern / path). -/
inductive GitingestError
  | IoError (msg : String)
  | PatternError (msg : String)
deriving DecidableEq

/-- One entry of the filesystem as enumerated by `WalkDir` (path, kind and
`fs::metadata` length). -/
structure FsEntry where
  path : List String
  isDirEntry : Bool
  size : Nat
deriving DecidableEq

/-- Components joined with `/`: the string form of a path used for glob
matching and for `relative_path`. -/
def pathString (p : List String) : String :=
  String.intercalate "/" p

/-- `Path::file_name` with the `unwrap_or_else` fallback to the full path
used in files.rs. -/
def lastName (p : List String) : String :=
  match p.getLast? with
  | some s => s
  | none => pathString p

/-- `file_path.strip_prefix(root_path).unwrap_or(file_path)` rendered as a
string. -/
def relString (root p : List String) : String :=
  if root.isPrefixOf p then pathString (p.drop root.length) else pathString p

/-- First filesystem entry with the given path (`fs::metadata` / kind
queries resolve against the walk's view of the filesystem). -/
def fsFind : List FsEntry → List String → Option FsEntry
  | [], _ => none
  | e :: t, p => if e.path = p then some e else fsFind t p

/-- `path.is_file()`. -/
def isFile (fs : List FsEntry) (p : List String) : Bool :=
  match fsFind fs p with
  | some e => !e.isDirEntry
  | none => false

/-- `path.is_dir()`. -/
def isDir (fs : List FsEntry) (p : List String) : Bool :=
  match fsFind fs p with
  | some e => e.isDirEntry
  | none => false

/-- Association-list lookup (used for the `HashMap`s, which the code only
queries by key). -/
def lookupAssoc {β : Type} : List (List String × β) → List String → Option β
  | [], _ => none
  | (k, v) :: t, q => if k = q then some v else lookupAssoc t q

/-! ## Glob patterns (`globset` as configured by patterns.rs) -/

/-- A token of a compiled glob: literal character, `?`, a (possibly negated)
character class, or a `*`/`**` wildcard (the default `globset`
configuration lets both cross path separators). -/
inductive GlobToken
  | lit (c : Char)
  | one
  | many
  | cls (neg : Bool) (cs : List Char)
deriving DecidableEq

/-- Scan a character-class body up to the closing `]`; `none` models the
unclosed-class error of `Glob::new`. -/
def scanClassBody : List Char → Option (List Char × List Char)
  | [] => none
  | c :: t =>
    if c = ']' then some ([], t)
    else match scanClassBody t with
      | some (cs, r) => some (c :: cs, r)
      | none => none

/-- Parse the remainder of a character class after the opening `[`: an
optional leading `!` for negation, then the body up to `]`. -/
def parseClassTail (t : List Char) : Option (Bool × List Char × List Char) :=
  match t with
  | '!' :: t2 =>
    match scanClassBody t2 with
    | some (cs, r) => some (true, cs, r)
    | none => none
  | _ =>
    match scanClassBody t with
    | some (cs, r) => some (false, cs, r)
    | none => none

/-- `Glob::new`: compile a pattern, `none` on malformed syntax (here: an
unclosed character class).  Structured with step fuel (first argument);
`globNew` supplies fuel exceeding the pattern length, which every step
consumes at least one character of. -/
def globNewFuel : Nat → List Char → Option (List GlobToken)
  | 0, _ => none
  | _ + 1, [] => some []
  | fuel + 1, c :: t =>
    if c = '*' then
      match globNewFuel fuel (t.dropWhile (· = '*')) with
      | some g => some (GlobToken.many :: g)
      | none => none
    else if c = '?' then
      match globNewFuel fuel t with
      | some g => some (GlobToken.one :: g)
      | none => none
    else if c = '[' then
      match parseClassTail t with
      | some (neg, cs, r) =>
        match globNewFuel fuel r with
        | some g => some (GlobToken.cls neg cs :: g)
        | none => none
      | none => none
    else
      match globNewFuel fuel t with
      | some g => some (GlobToken.lit c :: g)
      | none => none

/-- `Glob::new` on a whole pattern. -/
def globNew (l : List Char) : Option (List GlobToken) :=
  globNewFuel (l.length + 1) l

/-- Glob matching over character lists, with step fuel (each step shrinks
the combined token/character length, which the caller supplies as fuel). -/
def globMatchFuel : Nat → List GlobToken → List Char → Bool
  | 0, _, _ => false
  | fuel + 1, ts, ds =>
    match ts, ds with
    | [], [] => true
    | [], _ :: _ => false
    | GlobToken.lit c :: ts2, d :: ds2 => c = d && globMatchFuel fuel ts2 ds2
    | GlobToken.lit _ :: _, [] => false
    | GlobToken.one :: ts2, _ :: ds2 => globMatchFuel fuel ts2 ds2
    | GlobToken.one :: _, [] => false
    | GlobToken.cls neg cs :: ts2, d :: ds2 =>
        (cs.contains d != neg) && globMatchFuel fuel ts2 ds2
    | GlobToken.cls _ _ :: _, [] => false
    | GlobToken.many :: ts2, ds2 =>
        globMatchFuel fuel ts2 ds2 ||
          (match ds2 with
            | [] => false
            | _ :: ds3 => globMatchFuel fuel (GlobToken.many :: ts2) ds3)

/-- Glob matching over character lists. -/
def globMatchChars (ts : List GlobToken) (ds : List Char) : Bool :=
  globMatchFuel (ts.length + ds.length + 1) ts ds

/-- `GlobSet::is_match`: any compiled glob matches the path string. -/
def globSetMatch (s : List (List GlobToken)) (path : String) : Bool :=
  s.any (fun g => globMatchChars g path.toList)

/-! ## PatternService (patterns.rs) -/

/-- `PatternService::new_matcher` (patterns.rs lines 9-18): stores the
pattern lists without validating them. -/
def new_matcher (include_patterns exclude_patterns : List String) :
    Except GitingestError PatternMatcher :=
  Except.ok
    { include_patterns := include_patterns
      exclude_patterns := exclude_patterns
      gitignore_patterns := [] }

/-- `PatternService::build_glob_set` (patterns.rs lines 71-82): compile each
pattern, failing with a pattern error on the first malformed one. -/
def build_glob_set : List String → Except GitingestError (List (List GlobToken))
  | [] => Except.ok []
  | p :: ps =>
    match globNew p.toList with
    | some g =>
      match build_glob_set ps with
      | Except.ok s => Except.ok (g :: s)
      | Except.error e => Except.error e
    | none => Except.error (GitingestError.PatternError p)

/-- `PatternService::should_include_file` (patterns.rs lines 20-51):
include filter (non-empty include list must match), then exclude filter,
then gitignore filter, with the early returns made explicit. -/
def should_include_file (m : PatternMatcher) (p : List String) :
    Except GitingestError Bool :=
  let gitignoreStep : Except GitingestError Bool :=
    if m.gitignore_patterns.isEmpty then Except.ok true
    else
      match build_glob_set m.gitignore_patterns with
      | Except.error e => Except.error e
      | Except.ok s =>
        if globSetMatch s (pathString p) then Except.ok false else Except.ok true
  let excludeStep : Except GitingestError Bool :=
    if m.exclude_patterns.isEmpty then gitignoreStep
    else
      match build_glob_set m.exclude_patterns with
      | Except.error e => Except.error e
      | Except.ok s =>
        if globSetMatch s (pathString p) then Except.ok false else gitignoreStep
  if m.include_patterns.isEmpty then excludeStep
  else
    match build_glob_set m.include_patterns with
    | Except.error e => Except.error e
    | Except.ok s =>
      if !globSetMatch s (pathString p) then Except.ok false else excludeStep

/-- `str::lines`: split the content at newlines.  (Rust also drops one
trailing empty line and strips a final carriage return per line; the
blank-line skip and the trim in `parse_gitignore` make both differences
invisible to it.) -/
def linesOf (content : String) : List String :=
  (List.splitOn '\n' content.toList).map String.mk

/-- `str::trim`: drop whitespace from both ends. -/
def trimStr (s : String) : String :=
  String.mk
    (((s.toList.dropWhile Char.isWhitespace).reverse.dropWhile
      Char.isWhitespace).reverse)

/-- `str::starts_with` for a single-character needle. -/
def headIs (s : String) (c : Char) : Bool :=
  match s.toList with
  | [] => false
  | d :: _ => d = c

/-- Loop body of `parse_gitignore`: trim, skip blanks, comments and
negations, append the rest. -/
def gitignoreStep (acc : List String) (rawLine : String) : List String :=
  let line := trimStr rawLine
  if line.toList.isEmpty || headIs line '#' then acc
  else if headIs line '!' then acc
  else acc ++ [line]

/-- `PatternService::parse_gitignore` (patterns.rs lines 84-109), over the
gitignore file content. -/
def parse_gitignore (content : String) : List String :=
  (linesOf content).foldl gitignoreStep []

/-- `normalize_pattern` (patterns.rs lines 123-135): backslashes become
slashes (the replace target is a single character, so a character map),
and a trailing-slash directory pattern is widened with `**`. -/
def normalize_pattern (pattern : String) : String :=
  let normalized :=
    String.mk (pattern.toList.map (fun c => if c = '\\' then '/' else c))
  if normalized.toList.getLast? = some '/' then normalized ++ "**"
  else normalized

/-- Extension list of `is_binary_file` (patterns.rs lines 143-149). -/
def binaryExtensions : List String :=
  ["exe", "dll", "so", "dylib", "a", "lib", "o", "obj",
   "png", "jpg", "jpeg", "gif", "bmp", "ico", "svg",
   "pdf", "doc", "docx", "xls", "xlsx", "ppt", "pptx",
   "zip", "tar", "gz", "bz2", "7z", "rar",
   "mp3", "mp4", "avi", "mov", "wmv", "flv"]

/-- `Path::extension` of a file name: the part after the last dot, none when
there is no dot or the name starts with its only dot. -/
def extensionOf (name : String) : Option String :=
  let rev := name.toList.reverse
  let ext := rev.takeWhile (· ≠ '.')
  match rev.dropWhile (· ≠ '.') with
  | '.' :: t => if t.isEmpty then none else some (String.mk ext.reverse)
  | _ => none

/-- `str::to_lowercase` restricted to its ASCII action (extensions are
ASCII), mapped over the characters. -/
def toLowerStr (s : String) : String :=
  String.mk (s.toList.map Char.toLower)

/-- `is_binary_file` (patterns.rs lines 137-153): extension-only heuristic. -/
def is_binary_file (p : List String) : Bool :=
  match extensionOf (lastName p) with
  | some e => binaryExtensions.contains (toLowerStr e)
  | none => false

/-! ## FileService (files.rs, lazy pipeline) -/

/-- `FileService::process_file_lazy` (files.rs lines 442-478).  The `&&`
chain computing `has_content` short-circuits, so the fallible inclusion
query runs only when the size check passes. -/
def process_file_lazy (fs : List FsEntry) (root : List String)
    (m : PatternMatcher) (max_file_size : Nat) (p : List String) :
    Except GitingestError FileNodeLazy :=
  match fsFind fs p with
  | none => Except.error (GitingestError.IoError (pathString p))
  | some e =>
    let hc : Except GitingestError Bool :=
      if e.size ≤ max_file_size then
        match should_include_file m p with
        | Except.ok inc => Except.ok (inc && !is_binary_file p)
        | Except.error err => Except.error err
      else
        Except.ok false
    match hc with
    | Except.error err => Except.error err
    | Except.ok has_content =>
      Except.ok
        { name := lastName p
          path := p
          relative_path := relString root p
          node_type := FileNodeType.File
          size := e.size
          has_content := has_content
          children := []
          depth := 0 }

/-- Lexicographic comparison of character lists: the order `String::cmp`
uses in Rust (UTF-8 byte order coincides with code-point order). -/
def charListLt : List Char → List Char → Bool
  | [], [] => false
  | [], _ :: _ => true
  | _ :: _, [] => false
  | a :: as, b :: bs =>
    if a < b then true
    else if b < a then false
    else charListLt as bs

/-- `String` comparison as in Rust (lexicographic). -/
def strLt (a b : String) : Bool :=
  charListLt a.toList b.toList

/-- The children comparator of `build_lazy_directory_tree` (files.rs lines
525-531): directories before files, otherwise by name (`String::cmp`,
lexicographic). -/
def cmpNode (a b : FileNodeLazy) : Ordering :=
  match a.node_type, b.node_type with
  | FileNodeType.Directory, FileNodeType.File => Ordering.lt
  | FileNodeType.File, FileNodeType.Directory => Ordering.gt
  | _, _ =>
    if strLt a.name b.name then Ordering.lt
    else if strLt b.name a.name then Ordering.gt
    else Ordering.eq

/-- Stable insertion used to model `Vec::sort_by` with `cmpNode`. -/
def orderedInsertNode (a : FileNodeLazy) : List FileNodeLazy → List FileNodeLazy
  | [] => [a]
  | b :: l =>
    if cmpNode a b = Ordering.gt then b :: orderedInsertNode a l
    else a :: b :: l

/-- `children.sort_by(cmpNode)`: a stable sort by the comparator (stable
insertion sort produces the same list as Rust's stable `sort_by`). -/
def sortChildren (l : List FileNodeLazy) : List FileNodeLazy :=
  l.foldr orderedInsertNode []

/-- The directory node produced by `build_lazy_directory_tree` (files.rs
lines 533-542). -/
def mkDirNode (p : List String) (children : List FileNodeLazy) : FileNodeLazy :=
  { name := lastName p
    path := p
    relative_path := ""
    node_type := FileNodeType.Directory
    size := 0
    has_content := false
    children := children
    depth := 0 }

/-- Keep-first deduplication with an accumulator of already-seen paths:
the contents of the `subdirectories` `HashSet`. -/
def dedupSeen (seen : List (List String)) :
    List (List String) → List (List String)
  | [] => []
  | a :: t => if a ∈ seen then dedupSeen seen t else a :: dedupSeen (a :: seen) t

/-- Keep-first deduplication of the subdirectory insertion sequence. -/
def dedupKeepFirst (l : List (List String)) : List (List String) :=
  dedupSeen [] l

/-- File children of one directory during the tree build: the adjacency
members that are files, resolved against the metadata map (files.rs lines
496-506, file branch). -/
def buildFileChildren (fs : List FsEntry)
    (fn : List (List String × FileNodeLazy))
    (fm : List (List String × List (List String)))
    (current : List String) : List FileNodeLazy :=
  ((lookupAssoc fm current).getD []).filterMap
    (fun p => if isFile fs p then lookupAssoc fn p else none)

/-- The `subdirectories` hash set of one directory: adjacency members that
are directories plus adjacency keys whose parent is the current directory
(files.rs lines 496-514), deduplicated. -/
def buildSubdirPaths (fs : List FsEntry)
    (fm : List (List String × List (List String)))
    (current : List String) : List (List String) :=
  dedupKeepFirst
    (((lookupAssoc fm current).getD []).filter
        (fun p => !isFile fs p && isDir fs p) ++
      (fm.map Prod.fst).filter
        (fun k => !k.isEmpty && decide (k.dropLast = current) && isDir fs k))

/-- `FileService::build_lazy_directory_tree` (files.rs lines 481-543).
`fn` is the path-to-node metadata map, `fm` the parent-to-children
adjacency map (as association lists in hash-iteration order), `σ` the
iteration order of the `subdirectories` hash set (the scan instantiates
`σ := id`), and the `Nat` argument is recursion fuel (the Rust recursion
terminates because each recursive call descends to a strictly longer path;
callers pass fuel exceeding the longest path). -/
def build_lazy_directory_tree (fs : List FsEntry)
    (fn : List (List String × FileNodeLazy))
    (fm : List (List String × List (List String)))
    (σ : List (List String) → List (List String)) :
    Nat → List String → FileNodeLazy
  | 0, current => mkDirNode current []
  | fuel + 1, current =>
    mkDirNode current
      (sortChildren
        (buildFileChildren fs fn fm current ++
          (σ (buildSubdirPaths fs fm current)).map
            (build_lazy_directory_tree fs fn fm σ fuel)))

/-- `Path::parent`: drop the last component, none for the empty path. -/
def parentOf (p : List String) : Option (List String) :=
  match p with
  | [] => none
  | _ :: _ => some p.dropLast

/-- Append a path under a key of the adjacency map
(`file_map.entry(parent).or_insert_with(Vec::new).push(path)`). -/
def fmInsert (m : List (List String × List (List String)))
    (k : List String) (v : List String) :
    List (List String × List (List String)) :=
  match m with
  | [] => [(k, [v])]
  | (k2, vs) :: rest =>
    if k2 = k then (k2, vs ++ [v]) :: rest else (k2, vs) :: fmInsert rest k v

/-- The adjacency map built by the grouping loop of `scan_directory_lazy`
(files.rs lines 386-398): every walked path registers under its parent. -/
def buildFileMap (paths : List (List String)) :
    List (List String × List (List String)) :=
  paths.foldl
    (fun m p =>
      match parentOf p with
      | some k => fmInsert m k p
      | none => m)
    []

/-- Fuel that always suffices for the tree build: beyond the longest walked
path the builder finds no further subdirectories. -/
def fuelFor (paths : List (List String)) : Nat :=
  2 + (paths.map List.length).foldr Nat.max 0

/-- `all_paths` of `scan_directory_lazy`: the depth-bounded `WalkDir`
enumeration truncated by `take(max_files)`. -/
def scanPaths (fs : List FsEntry) (root : List String) (max_files : Nat)
    (max_depth : Nat) : List (List String) :=
  ((fs.filter (fun e => e.path.length ≤ root.length + max_depth)).map
    (fun e => e.path)).take max_files

/-- `all_files`: the retained paths that are files. -/
def scanFiles (fs : List FsEntry) (root : List String) (max_files : Nat)
    (max_depth : Nat) : List (List String) :=
  (scanPaths fs root max_files max_depth).filter (fun p => isFile fs p)

/-- `file_nodes`: the per-path metadata map; processing failures are
silently dropped. -/
def scanFileNodes (fs : List FsEntry) (root : List String)
    (m : PatternMatcher) (max_file_size : Nat) (max_files : Nat)
    (max_depth : Nat) : List (List String × FileNodeLazy) :=
  (scanFiles fs root max_files max_depth).filterMap
    (fun p =>
      match process_file_lazy fs root m max_file_size p with
      | Except.ok n => some (p, n)
      | Except.error _ => none)

/-- `FileService::scan_directory_lazy` (files.rs lines 362-440).  `fs` is
the `WalkDir` enumeration (walk order); `max_depth` bounds the walk, then
`take(max_files)` truncates the path list; candidate files produce lazy
nodes (failures silently dropped) and the tree is built from the maps.
The function never fails, matching the code (walk errors are filtered out
and per-file errors are dropped). -/
def scan_directory_lazy (fs : List FsEntry) (root : List String)
    (m : PatternMatcher) (max_file_size : Nat) (max_files : Nat)
    (max_depth : Nat) : FileNodeLazy :=
  build_lazy_directory_tree fs
    (scanFileNodes fs root m max_file_size max_files max_depth)
    (buildFileMap (scanPaths fs root max_files max_depth))
    id
    (fuelFor (scanPaths fs root max_files max_depth))
    root

/-! ## Rendering, content materialization and statistics -/

mutual

/-- `FileService::generate_tree_string_lazy` (files.rs lines 551-573),
with the sibling loop split into a mutual helper carrying the
last-sibling flag. -/
def generate_tree_string_lazy (node : FileNodeLazy) (pre : String)
    (is_last : Bool) : String :=
  let connector := if is_last then "└── " else "├── "
  let name_display :=
    match node.node_type with
    | FileNodeType.Directory => node.name ++ "/"
    | FileNodeType.Symlink => node.name ++ " -> ?"
    | FileNodeType.File => node.name
  let line := pre ++ connector ++ name_display ++ "\n"
  if node.node_type = FileNodeType.Directory then
    let new_pre := pre ++ (if is_last then "    " else "│   ")
    line ++ renderChildren node.children new_pre
  else
    line
termination_by sizeOf node
decreasing_by
  cases node
  simp
  all_goals omega

/-- Sibling loop of `generate_tree_string_lazy`: the last sibling gets the
terminal connector. -/
def renderChildren (cs : List FileNodeLazy) (pre : String) : String :=
  match cs with
  | [] => ""
  | [c] => generate_tree_string_lazy c pre true
  | c :: c2 :: rest =>
    generate_tree_string_lazy c pre false ++ renderChildren (c2 :: rest) pre
termination_by sizeOf cs
decreasing_by
  all_goals simp
  all_goals omega

end

/-- The 48-character separator line of `ContentWriter::write_content`. -/
def sepLine : String := String.mk (List.replicate 48 '=')

/-- Output block of one has-content file: header, separator, then content,
truncation notice (size over the 100000-byte content threshold) or
read-error placeholder.  `reader` models `std::fs::read_to_string`. -/
def fileEntryText (reader : List String → Option String) (n : FileNodeLazy) :
    String :=
  n.relative_path ++ ":\n" ++ sepLine ++ "\n" ++
    (if 100000 < n.size then
      "[Large file content truncated - " ++ toString n.size ++ " bytes]\n\n"
    else
      match reader n.path with
      | some c => c ++ "\n\n"
      | none => "[Error reading file content]\n\n")

mutual

/-- `ContentWriter::write_content` for the lazy node (models.rs lines
102-127): file nodes with content emit their block, directories recurse
into children, everything else writes nothing. -/
def write_content (n : FileNodeLazy) (reader : List String → Option String) :
    String :=
  if n.node_type = FileNodeType.File ∧ n.has_content then
    fileEntryText reader n
  else if n.node_type = FileNodeType.Directory then
    writeChildren n.children reader
  else
    ""
termination_by sizeOf n
decreasing_by
  cases n
  simp
  all_goals omega

/-- Child loop of `write_content`. -/
def writeChildren (cs : List FileNodeLazy)
    (reader : List String → Option String) : String :=
  match cs with
  | [] => ""
  | c :: rest => write_content c reader ++ writeChildren rest reader
termination_by sizeOf cs
decreasing_by
  all_goals simp
  all_goals omega

end

mutual

/-- `IngestService::count_files_lazy` (services.rs lines 170-178). -/
def count_files_lazy (n : FileNodeLazy) : Nat :=
  match n.node_type with
  | FileNodeType.File => 1
  | FileNodeType.Directory => countFilesList n.children
  | FileNodeType.Symlink => 0
termination_by sizeOf n
decreasing_by
  cases n
  simp
  all_goals omega

/-- Child sum of `count_files_lazy`. -/
def countFilesList : List FileNodeLazy → Nat
  | [] => 0
  | c :: rest => count_files_lazy c + countFilesList rest
termination_by cs => sizeOf cs
decreasing_by
  all_goals simp
  all_goals omega

end

mutual

/-- `IngestService::calculate_total_size_lazy` (services.rs lines
180-188). -/
def calculate_total_size_lazy (n : FileNodeLazy) : Nat :=
  match n.node_type with
  | FileNodeType.File => n.size
  | FileNodeType.Directory => totalSizeList n.children
  | FileNodeType.Symlink => 0
termination_by sizeOf n
decreasing_by
  cases n
  simp
  all_goals omega

/-- Child sum of `calculate_total_size_lazy`. -/
def totalSizeList : List FileNodeLazy → Nat
  | [] => 0
  | c :: rest => calculate_total_size_lazy c + totalSizeList rest
termination_by cs => sizeOf cs
decreasing_by
  all_goals simp
  all_goals omega

end

mutual

/-- Depth-first list of the file nodes the content walk can reach
(directories recurse, file and symlink nodes do not). -/
def contentFiles (n : FileNodeLazy) : List FileNodeLazy :=
  match n.node_type with
  | FileNodeType.File => [n]
  | FileNodeType.Directory => contentFilesList n.children
  | FileNodeType.Symlink => []
termination_by sizeOf n
decreasing_by
  cases n
  simp
  all_goals omega

/-- Child concatenation of `contentFiles`. -/
def contentFilesList : List FileNodeLazy → List FileNodeLazy
  | [] => []
  | c :: rest => contentFiles c ++ contentFilesList rest
termination_by cs => sizeOf cs
decreasing_by
  all_goals simp
  all_goals omega

end

/-- Concatenation of a list of strings. -/
def strConcat : List String → String
  | [] => ""
  | s :: rest => s ++ strConcat rest

/-- Membership of a node in the tree: the root itself or a node of some
child subtree. -/
inductive InTree (n : FileNodeLazy) : FileNodeLazy → Prop
  | refl : InTree n n
  | child (c t : FileNodeLazy) : c ∈ t.children → InTree n c → InTree n t

/-! ## Derived ordering notions used to state sortedness -/

/-- Rank used by the claimed child ordering: directories first. -/
def rankOf (n : FileNodeLazy) : Nat :=
  match n.node_type with
  | FileNodeType.Directory => 0
  | FileNodeType.File => 1
  | FileNodeType.Symlink => 2

/-- Rust string order, non-strict. -/
def strLe (a b : String) : Bool := !strLt b a

/-- One pair of the claimed child ordering: strictly smaller rank, or equal
rank and names in order. -/
def childPairOK (a b : FileNodeLazy) : Prop :=
  rankOf a < rankOf b ∨ (rankOf a = rankOf b ∧ strLe a.name b.name = true)

instance (a b : FileNodeLazy) : Decidable (childPairOK a b) := by
  unfold childPairOK
  infer_instance

/-- The claimed child ordering of a children list: directories before
files, lexicographic by name within each group. -/
def childOrderOK (l : List FileNodeLazy) : Prop := List.Pairwise childPairOK l

/-- Comparator-compatible order: `cmpNode` did not say greater. -/
def nodeLe (a b : FileNodeLazy) : Prop := cmpNode a b ≠ Ordering.gt

/-! ## Concrete scenarios referenced by the claim theorems -/

/-- The spec scenario filesystem: `src/main.txt` (10 bytes, text) and
`target/out.bin`, walked from the root. -/
def fsScenario : List FsEntry :=
  [⟨[], true, 0⟩, ⟨["src"], true, 0⟩, ⟨["src", "main.txt"], false, 10⟩,
   ⟨["target"], true, 0⟩, ⟨["target", "out.bin"], false, 5⟩]

/-- The spec scenario matcher: exclude `target/**` only. -/
def matcherScenario : PatternMatcher :=
  { include_patterns := []
    exclude_patterns := ["target/**"]
    gitignore_patterns := [] }

/-- The scan of the spec scenario (large limits everywhere). -/
def scanScenario : FileNodeLazy :=
  scan_directory_lazy fsScenario [] matcherScenario 1000000 1000 100

/-- The `src/main.txt` node the scenario scan produces. -/
def mainTxtNode : FileNodeLazy :=
  ⟨"main.txt", ["src", "main.txt"], "src/main.txt", FileNodeType.File, 10,
    true, [], 0⟩

/-- The `target/out.bin` node the scenario scan produces: excluded by
pattern, so without content, but present. -/
def outBinNode : FileNodeLazy :=
  ⟨"out.bin", ["target", "out.bin"], "target/out.bin", FileNodeType.File, 5,
    false, [], 0⟩

/-- The `src/` directory node of the scenario scan. -/
def srcDirNode : FileNodeLazy :=
  ⟨"src", ["src"], "", FileNodeType.Directory, 0, false, [mainTxtNode], 0⟩

/-- The `target/` directory node of the scenario scan. -/
def targetDirNode : FileNodeLazy :=
  ⟨"target", ["target"], "", FileNodeType.Directory, 0, false, [outBinNode], 0⟩

/-- The full tree of the scenario scan. -/
def scenarioTree : FileNodeLazy :=
  ⟨"", [], "", FileNodeType.Directory, 0, false, [srcDirNode, targetDirNode], 0⟩

/-- Content reader for the scenario: `src/main.txt` holds ten bytes. -/
def scenarioReader : List String → Option String :=
  fun p => if p = ["src", "main.txt"] then some "0123456789" else none

/-- A matcher with no patterns at all. -/
def emptyMatcher : PatternMatcher := ⟨[], [], []⟩

/-- Filesystem with a root directory and two eligible text files. -/
def fsTwoFiles : List FsEntry :=
  [⟨[], true, 0⟩, ⟨["a.txt"], false, 3⟩, ⟨["b.txt"], false, 3⟩]

/-- The two-file scan truncated at one walked path. -/
def scanTruncated : FileNodeLazy :=
  scan_directory_lazy fsTwoFiles [] emptyMatcher 1000000 1 100

/-- The two-file scan with room for all three walked paths. -/
def scanAll : FileNodeLazy :=
  scan_directory_lazy fsTwoFiles [] emptyMatcher 1000000 3 100

/-- One file exactly at the size limit used by the boundary witness. -/
def fsAtLimit : List FsEntry := [⟨["a.txt"], false, 10⟩]

/-- One file one byte over the size limit. -/
def fsOverLimit : List FsEntry := [⟨["b.txt"], false, 11⟩]

/-- Node produced for the at-limit file. -/
def nodeAtLimit : FileNodeLazy :=
  ⟨"a.txt", ["a.txt"], "a.txt", FileNodeType.File, 10, true, [], 0⟩

/-- Node produced for the over-limit file. -/
def nodeOverLimit : FileNodeLazy :=
  ⟨"b.txt", ["b.txt"], "b.txt", FileNodeType.File, 11, false, [], 0⟩

/-- The lines kept by gitignore ingestion: non-blank, not a comment, not a
negation. -/
def gitignoreKeep (line : String) : Bool :=
  !(line.toList.isEmpty || headIs line '#') && !headIs line '!'

/-- Nodes produced for the two eligible files of the truncation scenario. -/
def aTxtNode : FileNodeLazy :=
  ⟨"a.txt", ["a.txt"], "a.txt", FileNodeType.File, 3, true, [], 0⟩

/-- Second eligible file of the truncation scenario. -/
def bTxtNode : FileNodeLazy :=
  ⟨"b.txt", ["b.txt"], "b.txt", FileNodeType.File, 3, true, [], 0⟩

/-- The untruncated two-file tree. -/
def treeTwoFiles : FileNodeLazy :=
  ⟨"", [], "", FileNodeType.Directory, 0, false, [aTxtNode, bTxtNode], 0⟩

/-- The root-only tree left after truncating the walk to one path. -/
def emptyRootNode : FileNodeLazy :=
  ⟨"", [], "", FileNodeType.Directory, 0, false, [], 0⟩

/-- Filesystem for the determinism witness: a root with one file and two
subdirectories. -/
def fsW : List FsEntry :=
  [⟨[], true, 0⟩, ⟨["a"], false, 1⟩, ⟨["c"], true, 0⟩, ⟨["d"], true, 0⟩]

/-- Metadata node of the determinism witness file. -/
def aNodeW : FileNodeLazy :=
  ⟨"a", ["a"], "a", FileNodeType.File, 1, true, [], 0⟩

/-- Metadata map of the determinism witness. -/
def fnW : List (List String × FileNodeLazy) := [(["a"], aNodeW)]

/-- Adjacency map of the determinism witness. -/
def fmW : List (List String × List (List String)) :=
  [([], [["a"], ["c"], ["d"]])]

/-! ## Helper lemmas -/

/-- One gitignore loop step keeps exactly the trimmed lines passing
`gitignoreKeep`, verbatim. -/
theorem gitignoreStep_eq (acc : List String) (rawLine : String) :
    gitignoreStep acc rawLine =
      if gitignoreKeep (trimStr rawLine) then acc ++ [trimStr rawLine] else acc := by
  unfold gitignoreStep gitignoreKeep
  cases hE : (trimStr rawLine).toList.isEmpty <;>
    cases hH : headIs (trimStr rawLine) '#' <;>
    cases hB : headIs (trimStr rawLine) '!' <;>
    simp_all [String.toList, List.isEmpty_iff]

/-- The gitignore fold is a filter of the trimmed lines. -/
theorem parse_gitignore_foldl (lines : List String) (acc : List String) :
    lines.foldl gitignoreStep acc
    = acc ++ (lines.map trimStr).filter gitignoreKeep := by
  induction lines generalizing acc with
  | nil => simp
  | cons l rest ih =>
    simp only [List.foldl_cons, List.map_cons, List.filter, gitignoreStep_eq]
    by_cases h1 : gitignoreKeep (trimStr l)
    · simp [h1, ih]
    · simp [h1, ih]

/-- A pattern list whose members all compile yields a glob set. -/
theorem build_glob_set_ok_of_wf (pats : List String)
    (h : ∀ pat ∈ pats, (globNew pat.toList).isSome = true) :
    ∃ s, build_glob_set pats = Except.ok s := by
  induction pats with
  | nil => exact ⟨[], rfl⟩
  | cons p ps ih =>
    have hp := h p (by simp)
    cases hg : globNew p.toList with
    | none => rw [hg] at hp; simp at hp
    | some g =>
      obtain ⟨s, hs⟩ := ih (fun q hq => h q (by simp [hq]))
      refine ⟨g :: s, ?_⟩
      unfold build_glob_set
      rw [hg, hs]

/-- When every pattern of the matcher compiles, inclusion queries return a
verdict rather than an error. -/
theorem should_include_file_ok_of_wf (m : PatternMatcher) (p : List String)
    (h : ∀ pat ∈ m.include_patterns ++ m.exclude_patterns ++ m.gitignore_patterns,
      (globNew pat.toList).isSome = true) :
    ∃ b, should_include_file m p = Except.ok b := by
  obtain ⟨si, hi⟩ := build_glob_set_ok_of_wf m.include_patterns
    (fun q hq => h q (by simp [hq]))
  obtain ⟨se, he⟩ := build_glob_set_ok_of_wf m.exclude_patterns
    (fun q hq => h q (by simp [hq]))
  obtain ⟨sg, hg⟩ := build_glob_set_ok_of_wf m.gitignore_patterns
    (fun q hq => h q (by simp [hq]))
  unfold should_include_file
  simp only [hi, he, hg]
  repeat' split
  all_goals exact ⟨_, rfl⟩

/-! ## Claim theorems -/

/-- Claim C1, counterexample: with exclude `target/**`, the path
`target/out.bin` matches the exclude pattern yet its node is in the tree
returned by the scan; the tree has two file nodes (not one) and total size
15 (not 10).  The scan never filters walked paths by pattern; exclusion
only clears the has-content flag. -/
theorem c1_excluded_path_in_tree_counterexample :
    should_include_file matcherScenario ["target", "out.bin"] = Except.ok false ∧
    InTree outBinNode scanScenario ∧
    count_files_lazy scanScenario = 2 ∧
    calculate_total_size_lazy scanScenario = 15 := by
  have htree : scanScenario = scenarioTree := rfl
  refine ⟨rfl, ?_, ?_, ?_⟩
  · rw [htree]
    refine InTree.child targetDirNode scenarioTree ?_
      (InTree.child outBinNode targetDirNode ?_ InTree.refl)
    · show targetDirNode ∈ [srcDirNode, targetDirNode]
      exact List.mem_cons_of_mem _ (List.mem_singleton_self _)
    · show outBinNode ∈ [outBinNode]
      exact List.mem_singleton_self _
  · rw [htree]
    simp [scenarioTree, srcDirNode, targetDirNode, mainTxtNode, outBinNode,
          count_files_lazy, countFilesList]
  · rw [htree]
    simp [scenarioTree, srcDirNode, targetDirNode, mainTxtNode, outBinNode,
          calculate_total_size_lazy, totalSizeList]

/-- Claim C2, counterexample: with max_files = 1 over a root holding two
eligible text files, the walk truncation keeps only the root path, so the
tree has zero file nodes, not one; both files are eligible (their lazy
processing succeeds with content). -/
theorem c2_truncation_counterexample :
    count_files_lazy scanTruncated = 0 ∧
    (process_file_lazy fsTwoFiles [] emptyMatcher 1000000 ["a.txt"]).map
      (fun n => n.has_content) = Except.ok true ∧
    (process_file_lazy fsTwoFiles [] emptyMatcher 1000000 ["b.txt"]).map
      (fun n => n.has_content) = Except.ok true := by
  refine ⟨?_, rfl, rfl⟩
  have h : scanTruncated = emptyRootNode := rfl
  rw [h]
  simp [emptyRootNode, count_files_lazy, countFilesList]

/-- Claim C2, amended: the max-file-count truncation applies to all
enumerated paths, the root and directories included, and is silent; with
max_files = 1 the trimmed walk retains only the root and the tree has zero
file nodes, while max_files = 3 retains root plus both files. -/
theorem c2_truncation_amended :
    count_files_lazy scanTruncated = 0 ∧
    scanTruncated = emptyRootNode ∧
    count_files_lazy scanAll = 2 := by
  have h : scanTruncated = emptyRootNode := rfl
  have h2 : scanAll = treeTwoFiles := rfl
  refine ⟨?_, h, ?_⟩
  · rw [h]
    simp [emptyRootNode, count_files_lazy, countFilesList]
  · rw [h2]
    simp [treeTwoFiles, aTxtNode, bTxtNode, count_files_lazy, countFilesList]

/-- Claim C3, counterexample: matcher construction stores the malformed
glob `[` without validating it and succeeds; the pattern error first
surfaces during a per-path inclusion query. -/
theorem c3_matcher_construction_counterexample :
    new_matcher [] ["["] = Except.ok ⟨[], ["["], []⟩ ∧
    should_include_file ⟨[], ["["], []⟩ ["a"] =
      Except.error (GitingestError.PatternError "[") := ⟨rfl, rfl⟩

/-- Claim C3, amended: matcher construction performs no validation and
always succeeds, for malformed patterns too; a malformed glob is first
reported as a pattern error by a per-path inclusion query, and if every
pattern compiles such queries never fail. -/
theorem c3_pattern_error_amended :
    (∀ inc exc, new_matcher inc exc = Except.ok ⟨inc, exc, []⟩) ∧
    should_include_file ⟨[], ["["], []⟩ ["a"] =
      Except.error (GitingestError.PatternError "[") ∧
    (∀ (m : PatternMatcher) (p : List String),
      (∀ pat ∈ m.include_patterns ++ m.exclude_patterns ++ m.gitignore_patterns,
        (globNew pat.toList).isSome = true) →
      ∃ b, should_include_file m p = Except.ok b) :=
  ⟨fun _ _ => rfl, rfl, should_include_file_ok_of_wf⟩

/-- Claim C3, witness: the well-formed scenario matcher answers inclusion
queries without error. -/
theorem c3_pattern_error_amended_witness :
    ∃ b, should_include_file matcherScenario ["x"] = Except.ok b :=
  c3_pattern_error_amended.2.2 matcherScenario ["x"]
    (by
      intro pat hp
      simp [matcherScenario] at hp
      subst hp
      rfl)

/-- Claim C4, counterexample: a kept `build/` line is appended verbatim,
not widened, and as a gitignore pattern it fails to exclude the descendant
`build/x.txt`. -/
theorem c4_gitignore_widening_counterexample :
    parse_gitignore "build/\n!keep\n# note\n\ntmp" = ["build/", "tmp"] ∧
    should_include_file ⟨[], [], ["build/"]⟩ ["build", "x.txt"] =
      Except.ok true := ⟨rfl, rfl⟩

/-- Claim C4, amended: gitignore ingestion keeps exactly the trimmed
non-blank, non-comment, non-negated lines, verbatim; trailing-slash lines
are not widened.  The widening helper `normalize_pattern` exists and would
widen `build/` to `build/**` (which does exclude descendants) but is never
applied during ingestion. -/
theorem c4_gitignore_amended :
    (∀ content, parse_gitignore content =
      ((linesOf content).map trimStr).filter gitignoreKeep) ∧
    normalize_pattern "build/" = "build/**" ∧
    should_include_file ⟨[], [], [normalize_pattern "build/"]⟩ ["build", "x.txt"]
      = Except.ok false := by
  refine ⟨?_, rfl, rfl⟩
  intro content
  unfold parse_gitignore
  rw [parse_gitignore_foldl]
  simp

/-- Claim C5: a lazily processed file has its has-content flag set if and
only if its size is within the configured maximum, the path passes
file-inclusion, and its extension is not classified binary. -/
theorem c5_has_content_iff (fs : List FsEntry) (root : List String)
    (m : PatternMatcher) (max_file_size : Nat) (p : List String)
    (node : FileNodeLazy)
    (h : process_file_lazy fs root m max_file_size p = Except.ok node) :
    node.has_content = true ↔
      (node.size ≤ max_file_size ∧ should_include_file m p = Except.ok true ∧
        is_binary_file p = false) := by
  unfold process_file_lazy at h
  cases hfind : fsFind fs p with
  | none => rw [hfind] at h; cases h
  | some e =>
    rw [hfind] at h
    simp only [] at h
    by_cases hsz : e.size ≤ max_file_size
    · rw [if_pos hsz] at h
      cases hinc : should_include_file m p with
      | error err => rw [hinc] at h; cases h
      | ok inc =>
        rw [hinc] at h
        cases h
        simp [hsz]
    · rw [if_neg hsz] at h
      cases h
      simp [hsz]

/-- Claim C5, witness: a 10-byte file with max_file_size 10 is exactly at
the boundary and keeps content (all three conditions hold by the theorem);
one byte over loses it. -/
theorem c5_has_content_iff_witness :
    (nodeAtLimit.size ≤ 10 ∧
      should_include_file emptyMatcher ["a.txt"] = Except.ok true ∧
      is_binary_file ["a.txt"] = false) ∧
    nodeOverLimit.has_content = false ∧
    process_file_lazy fsOverLimit [] emptyMatcher 10 ["b.txt"] =
      Except.ok nodeOverLimit :=
  ⟨(c5_has_content_iff fsAtLimit [] emptyMatcher 10 ["a.txt"] nodeAtLimit
      rfl).mp rfl,
    rfl, rfl⟩

/-! ## Order and sorting lemmas -/

theorem charListLt_irrefl (a : List Char) : charListLt a a = false := by
  induction a with
  | nil => rfl
  | cons c t ih => simp [charListLt, ih]

theorem charListLt_trans (a b c : List Char)
    (h1 : charListLt a b = true) (h2 : charListLt b c = true) :
    charListLt a c = true := by
  induction a generalizing b c with
  | nil =>
    cases b with
    | nil => simp [charListLt] at h1
    | cons bh bt =>
      cases c with
      | nil => simp [charListLt] at h2
      | cons ch ct => rfl
  | cons ah at2 ih =>
    cases b with
    | nil => simp [charListLt] at h1
    | cons bh bt =>
      cases c with
      | nil => simp [charListLt] at h2
      | cons ch ct =>
        simp only [charListLt] at h1 h2 ⊢
        rcases lt_trichotomy ah bh with hab | hab | hab
        · rcases lt_trichotomy bh ch with hbc | hbc | hbc
          · simp [lt_trans hab hbc]
          · subst hbc
            simp [hab]
          · simp [asymm hbc, hbc] at h2
        · subst hab
          simp [lt_irrefl] at h1
          rcases lt_trichotomy ah ch with hac | hac | hac
          · simp [hac]
          · subst hac
            simp [lt_irrefl] at h2 ⊢
            exact ih bt ct h1 h2
          · simp [asymm hac, hac] at h2
        · simp [asymm hab, hab] at h1

theorem charListLt_conn (a b : List Char)
    (h1 : charListLt a b = false) (h2 : charListLt b a = false) : a = b := by
  induction a generalizing b with
  | nil =>
    cases b with
    | nil => rfl
    | cons bh bt => simp [charListLt] at h1
  | cons ah at2 ih =>
    cases b with
    | nil => simp [charListLt] at h2
    | cons bh bt =>
      simp only [charListLt] at h1 h2
      rcases lt_trichotomy ah bh with hab | hab | hab
      · simp [hab] at h1
      · subst hab
        simp [lt_irrefl] at h1 h2
        rw [ih bt h1 h2]
      · simp [asymm hab, hab] at h2

theorem strLt_conn (a b : String) (h1 : strLt a b = false)
    (h2 : strLt b a = false) : a = b := by
  unfold strLt at h1 h2
  have h := charListLt_conn _ _ h1 h2
  cases a with
  | mk da =>
    cases b with
    | mk db =>
      simp [String.toList] at h
      rw [h]

theorem charListLt_le_trans (a b c : List Char)
    (h1 : charListLt b a = false) (h2 : charListLt c b = false) :
    charListLt c a = false := by
  by_contra hx
  simp only [Bool.not_eq_false] at hx
  cases hab : charListLt a b with
  | true => exact absurd (charListLt_trans c a b hx hab) (by simp [h2])
  | false =>
    rw [charListLt_conn a b hab h1] at hx
    simp [hx] at h2

theorem strLe_trans (a b c : String) (h1 : strLe a b = true)
    (h2 : strLe b c = true) : strLe a c = true := by
  unfold strLe strLt at h1 h2 ⊢
  simp only [Bool.not_eq_true'] at h1 h2 ⊢
  exact charListLt_le_trans _ _ _ h1 h2

theorem strLe_total (a b : String) (h : strLe a b = false) :
    strLe b a = true := by
  unfold strLe strLt at h ⊢
  simp only [Bool.not_eq_false'] at h
  simp only [Bool.not_eq_true']
  by_contra hx
  simp only [Bool.not_eq_false] at hx
  exact absurd (charListLt_trans _ _ _ h hx) (by simp [charListLt_irrefl])

theorem strLe_antisymm (a b : String) (h1 : strLe a b = true)
    (h2 : strLe b a = true) : a = b := by
  unfold strLe strLt at h1 h2
  simp only [Bool.not_eq_true'] at h1 h2
  have h := charListLt_conn a.toList b.toList h2 h1
  cases a with
  | mk da =>
    cases b with
    | mk db =>
      simp [String.toList] at h
      rw [h]

theorem strLt_asymm (a b : String) (h : strLt a b = true) :
    strLt b a = false := by
  by_contra hx
  simp only [Bool.not_eq_false] at hx
  unfold strLt at h hx
  exact absurd (charListLt_trans _ _ _ h hx) (by simp [charListLt_irrefl])

theorem cmpNode_not_gt_iff (a b : FileNodeLazy)
    (ha : a.node_type ≠ FileNodeType.Symlink)
    (hb : b.node_type ≠ FileNodeType.Symlink) :
    (cmpNode a b ≠ Ordering.gt) ↔ childPairOK a b := by
  unfold cmpNode childPairOK rankOf strLe
  cases hta : a.node_type <;> cases htb : b.node_type
  · cases hab : strLt a.name b.name with
    | true => simp [hab, strLt_asymm _ _ hab]
    | false =>
      cases hba : strLt b.name a.name with
      | true => simp [hab, hba]
      | false => simp [hab, hba]
  · simp
  · exact absurd htb hb
  · simp
  · cases hab : strLt a.name b.name with
    | true => simp [hab, strLt_asymm _ _ hab]
    | false =>
      cases hba : strLt b.name a.name with
      | true => simp [hab, hba]
      | false => simp [hab, hba]
  · exact absurd htb hb
  · exact absurd hta ha
  · exact absurd hta ha
  · exact absurd hta ha

theorem cmpNode_gt_imp (a b : FileNodeLazy)
    (ha : a.node_type ≠ FileNodeType.Symlink)
    (hb : b.node_type ≠ FileNodeType.Symlink)
    (h : cmpNode a b = Ordering.gt) : childPairOK b a := by
  unfold cmpNode at h
  unfold childPairOK rankOf strLe
  cases hta : a.node_type <;> cases htb : b.node_type <;>
    rw [hta, htb] at h
  · cases hab : strLt a.name b.name with
    | true => rw [hab] at h; simp at h
    | false =>
      cases hba : strLt b.name a.name with
      | true => simp [hta, htb, hab]
      | false => rw [hab, hba] at h; simp at h
  · simp at h
  · exact absurd htb hb
  · simp [hta, htb]
  · cases hab : strLt a.name b.name with
    | true => rw [hab] at h; simp at h
    | false =>
      cases hba : strLt b.name a.name with
      | true => simp [hta, htb, hab]
      | false => rw [hab, hba] at h; simp at h
  · exact absurd htb hb
  · exact absurd hta ha
  · exact absurd hta ha
  · exact absurd hta ha

theorem childPairOK_trans (a b c : FileNodeLazy)
    (h1 : childPairOK a b) (h2 : childPairOK b c) : childPairOK a c := by
  unfold childPairOK at h1 h2 ⊢
  rcases h1 with h1 | ⟨h1r, h1n⟩
  · rcases h2 with h2 | ⟨h2r, h2n⟩
    · exact Or.inl (lt_trans h1 h2)
    · exact Or.inl (h2r ▸ h1)
  · rcases h2 with h2 | ⟨h2r, h2n⟩
    · exact Or.inl (h1r ▸ h2)
    · exact Or.inr ⟨h1r.trans h2r, strLe_trans _ _ _ h1n h2n⟩

theorem childPairOK_key_antisymm (a b : FileNodeLazy)
    (h1 : childPairOK a b) (h2 : childPairOK b a) :
    rankOf a = rankOf b ∧ a.name = b.name := by
  unfold childPairOK at h1 h2
  rcases h1 with h1 | ⟨h1r, h1n⟩
  · rcases h2 with h2 | ⟨h2r, h2n⟩
    · exact absurd (lt_trans h1 h2) (lt_irrefl _)
    · exact absurd h1 (by rw [h2r]; exact lt_irrefl _)
  · rcases h2 with h2 | ⟨h2r, h2n⟩
    · exact absurd h2 (by rw [h1r]; exact lt_irrefl _)
    · exact ⟨h1r, strLe_antisymm _ _ h1n h2n⟩

theorem orderedInsertNode_perm (a : FileNodeLazy) (l : List FileNodeLazy) :
    (orderedInsertNode a l).Perm (a :: l) := by
  induction l with
  | nil => simp [orderedInsertNode]
  | cons b t ih =>
    unfold orderedInsertNode
    split
    · exact (ih.cons b).trans (List.Perm.swap a b t)
    · exact List.Perm.refl _

theorem pairwise_orderedInsertNode (a : FileNodeLazy) (l : List FileNodeLazy)
    (hga : a.node_type ≠ FileNodeType.Symlink)
    (hg : ∀ x ∈ l, x.node_type ≠ FileNodeType.Symlink)
    (hp : List.Pairwise childPairOK l) :
    List.Pairwise childPairOK (orderedInsertNode a l) := by
  induction l with
  | nil => simp [orderedInsertNode, List.pairwise_cons]
  | cons b t ih =>
    rw [List.pairwise_cons] at hp
    obtain ⟨hbt, hpt⟩ := hp
    unfold orderedInsertNode
    split
    case isTrue hgt =>
      rw [List.pairwise_cons]
      constructor
      · intro x hx
        rw [(orderedInsertNode_perm a t).mem_iff] at hx
        rcases List.mem_cons.mp hx with hxa | hx2
        · subst hxa
          exact cmpNode_gt_imp _ _ hga (hg _ (by simp)) hgt
        · exact hbt x hx2
      · exact ih (fun x hx => hg x (by simp [hx])) hpt
    case isFalse hle =>
      rw [List.pairwise_cons]
      constructor
      · intro x hx
        rcases List.mem_cons.mp hx with hxb | hx2
        · subst hxb
          exact (cmpNode_not_gt_iff _ _ hga (hg _ (by simp))).mp hle
        · exact childPairOK_trans a b x
            ((cmpNode_not_gt_iff a b hga (hg b (by simp))).mp hle) (hbt x hx2)
      · exact List.pairwise_cons.mpr ⟨hbt, hpt⟩

theorem sortChildren_perm (l : List FileNodeLazy) : (sortChildren l).Perm l := by
  induction l with
  | nil => exact List.Perm.refl _
  | cons a t ih =>
    have he : sortChildren (a :: t) = orderedInsertNode a (sortChildren t) := rfl
    rw [he]
    exact (orderedInsertNode_perm a (sortChildren t)).trans (ih.cons a)

theorem sortChildren_pairwise (l : List FileNodeLazy)
    (hg : ∀ x ∈ l, x.node_type ≠ FileNodeType.Symlink) :
    List.Pairwise childPairOK (sortChildren l) := by
  induction l with
  | nil => simp [sortChildren]
  | cons a t ih =>
    have he : sortChildren (a :: t) = orderedInsertNode a (sortChildren t) := rfl
    rw [he]
    exact pairwise_orderedInsertNode a (sortChildren t) (hg a (by simp))
      (fun x hx => hg x (by simp [(sortChildren_perm t).mem_iff.mp hx]))
      (ih (fun x hx => hg x (by simp [hx])))

theorem sorted_childPair_unique (l1 : List FileNodeLazy) :
    ∀ (l2 : List FileNodeLazy), l1.Perm l2 →
    List.Pairwise childPairOK l1 → List.Pairwise childPairOK l2 →
    (∀ x ∈ l1, ∀ y ∈ l1, rankOf x = rankOf y → x.name = y.name → x = y) →
    l1 = l2 := by
  induction l1 with
  | nil =>
    intro l2 hperm _ _ _
    cases l2 with
    | nil => rfl
    | cons b t2 => exact absurd hperm.symm.eq_nil (by simp)
  | cons a t1 ih =>
    intro l2 hperm h1 h2 hanti
    cases l2 with
    | nil => exact absurd hperm.eq_nil (by simp)
    | cons b t2 =>
      rw [List.pairwise_cons] at h1 h2
      obtain ⟨hat1, h1t⟩ := h1
      obtain ⟨hbt2, h2t⟩ := h2
      have hab : a = b := by
        have haIn : a ∈ b :: t2 := hperm.subset (by simp)
        rcases List.mem_cons.mp haIn with h | h
        · exact h
        · have hbIn : b ∈ a :: t1 := hperm.symm.subset (by simp)
          rcases List.mem_cons.mp hbIn with h2b | h2b
          · exact h2b.symm
          · obtain ⟨hr, hn⟩ := childPairOK_key_antisymm a b (hat1 b h2b) (hbt2 a h)
            exact hanti a (by simp) b (by simp [h2b]) hr hn
      subst hab
      have ht : t1 = t2 := ih t2 hperm.cons_inv h1t h2t
        (fun x hx y hy => hanti x (by simp [hx]) y (by simp [hy]))
      rw [ht]

theorem lookupAssoc_mem {β : Type} (l : List (List String × β))
    (p : List String) (v : β) (h : lookupAssoc l p = some v) : (p, v) ∈ l := by
  induction l with
  | nil => simp [lookupAssoc] at h
  | cons kv t ih =>
    cases kv with
    | mk k w =>
      unfold lookupAssoc at h
      split at h
      · cases h
        simp_all
      · simp [ih h]

theorem InTree_leaf (n c : FileNodeLazy) (h : InTree n c)
    (hc : c.children = []) : n = c := by
  cases h with
  | refl => rfl
  | child c2 t hm _ => rw [hc] at hm; cases hm

theorem build_node_type (fs : List FsEntry)
    (fn : List (List String × FileNodeLazy))
    (fm : List (List String × List (List String)))
    (σ : List (List String) → List (List String))
    (fuel : Nat) (current : List String) :
    (build_lazy_directory_tree fs fn fm σ fuel current).node_type =
      FileNodeType.Directory ∧
    (build_lazy_directory_tree fs fn fm σ fuel current).path = current ∧
    (build_lazy_directory_tree fs fn fm σ fuel current).name = lastName current ∧
    (build_lazy_directory_tree fs fn fm σ fuel current).has_content = false ∧
    (build_lazy_directory_tree fs fn fm σ fuel current).relative_path = "" ∧
    (build_lazy_directory_tree fs fn fm σ fuel current).depth = 0 := by
  cases fuel <;> exact ⟨rfl, rfl, rfl, rfl, rfl, rfl⟩

theorem inTree_build (fs : List FsEntry)
    (fn : List (List String × FileNodeLazy))
    (fm : List (List String × List (List String)))
    (σ : List (List String) → List (List String))
    (hfn : ∀ p x, lookupAssoc fn p = some x →
      x.node_type = FileNodeType.File ∧ x.children = []) :
    ∀ (fuel : Nat) (current : List String) (n : FileNodeLazy),
      InTree n (build_lazy_directory_tree fs fn fm σ fuel current) →
      (∃ p, lookupAssoc fn p = some n) ∨
      (∃ c cs, n = mkDirNode c (sortChildren cs) ∧
        ∀ x ∈ cs, (∃ p, lookupAssoc fn p = some x) ∨
          x.node_type = FileNodeType.Directory) := by
  intro fuel
  induction fuel with
  | zero =>
    intro current n h
    cases h with
    | refl =>
      exact Or.inr ⟨current, [], rfl, by simp⟩
    | child c t hm _ =>
      simp [build_lazy_directory_tree, mkDirNode] at hm
  | succ f ih =>
    intro current n h
    cases h with
    | refl =>
      refine Or.inr ⟨current, _, rfl, ?_⟩
      intro x hx
      rcases List.mem_append.mp hx with hxf | hxd
      · rcases List.mem_filterMap.mp hxf with ⟨p, _, hp⟩
        split at hp
        · exact Or.inl ⟨p, hp⟩
        · cases hp
      · rcases List.mem_map.mp hxd with ⟨s, _, hs⟩
        exact Or.inr (hs ▸ (build_node_type fs fn fm σ f s).1)
    | child c t hm hsub =>
      have hc : c ∈ sortChildren _ := hm
      rw [(sortChildren_perm _).mem_iff] at hc
      rcases List.mem_append.mp hc with hxf | hxd
      · rcases List.mem_filterMap.mp hxf with ⟨p, _, hp⟩
        split at hp
        · have hleaf := (hfn p c hp).2
          exact Or.inl ⟨p, (InTree_leaf n c hsub hleaf) ▸ hp⟩
        · cases hp
      · rcases List.mem_map.mp hxd with ⟨s, _, hs⟩
        exact ih s n (hs ▸ hsub)

/-! ## Scan-level helper lemmas -/

/-- Successful lazy processing fully determines the node: a childless file
node at depth 0 carrying the path, the root-relative path and the
has-content verdict. -/
theorem process_ok_props (fs : List FsEntry) (root : List String)
    (m : PatternMatcher) (mfs : Nat) (p : List String) (x : FileNodeLazy)
    (h : process_file_lazy fs root m mfs p = Except.ok x) :
    x.node_type = FileNodeType.File ∧ x.children = [] ∧ x.depth = 0 ∧
    x.path = p ∧ x.relative_path = relString root p ∧ x.name = lastName p ∧
    (x.has_content = true ↔
      (x.size ≤ mfs ∧ should_include_file m p = Except.ok true ∧
        is_binary_file p = false)) := by
  unfold process_file_lazy at h
  cases hfind : fsFind fs p with
  | none => rw [hfind] at h; cases h
  | some e =>
    rw [hfind] at h
    simp only [] at h
    by_cases hsz : e.size ≤ mfs
    · rw [if_pos hsz] at h
      cases hinc : should_include_file m p with
      | error err => rw [hinc] at h; cases h
      | ok inc =>
        rw [hinc] at h
        cases h
        refine ⟨rfl, rfl, rfl, rfl, rfl, rfl, ?_⟩
        simp [hsz]
    · rw [if_neg hsz] at h
      cases h
      refine ⟨rfl, rfl, rfl, rfl, rfl, rfl, ?_⟩
      simp [hsz]

/-- Every value of the scan's metadata map is a successful processing
result for its key. -/
theorem scanFileNodes_ok (fs : List FsEntry) (root : List String)
    (m : PatternMatcher) (mfs : Nat) (maxf maxd : Nat)
    (p : List String) (x : FileNodeLazy)
    (h : lookupAssoc (scanFileNodes fs root m mfs maxf maxd) p = some x) :
    process_file_lazy fs root m mfs p = Except.ok x := by
  have hmem := lookupAssoc_mem _ _ _ h
  rcases List.mem_filterMap.mp hmem with ⟨q, _, hq⟩
  cases hproc : process_file_lazy fs root m mfs q with
  | ok node =>
    rw [hproc] at hq
    simp only [Option.some.injEq, Prod.mk.injEq] at hq
    obtain ⟨hqp, hnx⟩ := hq
    subst hqp
    subst hnx
    exact hproc
  | error e =>
    rw [hproc] at hq
    cases hq

/-- The scan's metadata map holds only childless file nodes. -/
theorem scanFn_file_leaf (fs : List FsEntry) (root : List String)
    (m : PatternMatcher) (mfs maxf maxd : Nat) :
    ∀ p x, lookupAssoc (scanFileNodes fs root m mfs maxf maxd) p = some x →
      x.node_type = FileNodeType.File ∧ x.children = [] := by
  intro p x hx
  have hp := process_ok_props fs root m mfs p x
    (scanFileNodes_ok fs root m mfs maxf maxd p x hx)
  exact ⟨hp.1, hp.2.1⟩

/-- Claim C7: in the tree built by the lazy scan, every node's children
list is ordered with directories before files and lexicographically by
name within each group, at every level. -/
theorem c7_children_sorted (fs : List FsEntry) (root : List String)
    (m : PatternMatcher) (mfs maxf maxd : Nat) (n : FileNodeLazy)
    (h : InTree n (scan_directory_lazy fs root m mfs maxf maxd)) :
    childOrderOK n.children := by
  rcases inTree_build fs _ _ id (scanFn_file_leaf fs root m mfs maxf maxd)
      _ root n h with ⟨p, hp⟩ | ⟨c, cs, hshape, hmembers⟩
  · rw [(scanFn_file_leaf fs root m mfs maxf maxd p n hp).2]
    exact List.Pairwise.nil
  · rw [hshape]
    show List.Pairwise childPairOK (sortChildren cs)
    apply sortChildren_pairwise
    intro x hx
    rcases hmembers x hx with ⟨p, hp⟩ | hdir
    · rw [(scanFn_file_leaf fs root m mfs maxf maxd p x hp).1]
      simp
    · rw [hdir]
      simp

/-- Claim C7, witness: the scenario scan's root children are ordered as
claimed. -/
theorem c7_children_sorted_witness : childOrderOK scanScenario.children :=
  c7_children_sorted fsScenario [] matcherScenario 1000000 1000 100
    scanScenario InTree.refl

/-- Claim C10: every node of the lazy scan's tree has depth 0; directory
nodes carry an empty relative path, and only file nodes carry the
root-relative path of their location. -/
theorem c10_depth_and_relative_path (fs : List FsEntry) (root : List String)
    (m : PatternMatcher) (mfs maxf maxd : Nat) (n : FileNodeLazy)
    (h : InTree n (scan_directory_lazy fs root m mfs maxf maxd)) :
    n.depth = 0 ∧
    (n.node_type = FileNodeType.Directory → n.relative_path = "") ∧
    (n.node_type = FileNodeType.File →
      n.relative_path = relString root n.path) := by
  rcases inTree_build fs _ _ id (scanFn_file_leaf fs root m mfs maxf maxd)
      _ root n h with ⟨p, hp⟩ | ⟨c, cs, hshape, _⟩
  · have hp2 := process_ok_props fs root m mfs p n
      (scanFileNodes_ok fs root m mfs maxf maxd p n hp)
    refine ⟨hp2.2.2.1, ?_, ?_⟩
    · intro hd
      rw [hp2.1] at hd
      cases hd
    · intro _
      rw [hp2.2.2.2.1]
      exact hp2.2.2.2.2.1
  · rw [hshape]
    refine ⟨rfl, fun _ => rfl, fun hf => ?_⟩
    simp [mkDirNode] at hf

/-- Claim C10, witness: instantiated at a deeply nested file node of the
scenario scan. -/
theorem c10_depth_and_relative_path_witness :
    mainTxtNode.depth = 0 ∧
    (mainTxtNode.node_type = FileNodeType.Directory →
      mainTxtNode.relative_path = "") ∧
    (mainTxtNode.node_type = FileNodeType.File →
      mainTxtNode.relative_path = relString [] mainTxtNode.path) :=
  c10_depth_and_relative_path fsScenario [] matcherScenario 1000000 1000 100
    mainTxtNode
    (by
      have htree : scan_directory_lazy fsScenario [] matcherScenario
          1000000 1000 100 = scenarioTree := rfl
      rw [htree]
      exact InTree.child srcDirNode scenarioTree
        (List.mem_cons_self _ _)
        (InTree.child mainTxtNode srcDirNode
          (List.mem_singleton_self _) InTree.refl))

/-- Claim C1, amended: a node of the scanned tree whose has-content flag is
set always passes inclusion, so excluded paths never contribute content —
but they do appear as nodes.  In the scenario, the tree counts two file
nodes totalling 15 bytes, while the materialized content holds only the
`src/main.txt` block. -/
theorem c1_exclusion_amended :
    (∀ (fs : List FsEntry) (root : List String) (m : PatternMatcher)
      (mfs maxf maxd : Nat) (n : FileNodeLazy),
      InTree n (scan_directory_lazy fs root m mfs maxf maxd) →
      n.has_content = true → should_include_file m n.path = Except.ok true) ∧
    count_files_lazy scanScenario = 2 ∧
    calculate_total_size_lazy scanScenario = 15 ∧
    write_content scanScenario scenarioReader =
      "src/main.txt:\n" ++ sepLine ++ "\n" ++ "0123456789\n\n" := by
  have htree : scanScenario = scenarioTree := rfl
  refine ⟨?_, ?_, ?_, ?_⟩
  · intro fs root m mfs maxf maxd n h hc
    rcases inTree_build fs _ _ id (scanFn_file_leaf fs root m mfs maxf maxd)
        _ root n h with ⟨p, hp⟩ | ⟨c, cs, hshape, _⟩
    · have hp2 := process_ok_props fs root m mfs p n
        (scanFileNodes_ok fs root m mfs maxf maxd p n hp)
      rw [hp2.2.2.2.1]
      exact ((hp2.2.2.2.2.2.2).mp hc).2.1
    · rw [hshape] at hc
      simp [mkDirNode] at hc
  · rw [htree]
    simp [scenarioTree, srcDirNode, targetDirNode, mainTxtNode, outBinNode,
      count_files_lazy, countFilesList]
  · rw [htree]
    simp [scenarioTree, srcDirNode, targetDirNode, mainTxtNode, outBinNode,
      calculate_total_size_lazy, totalSizeList]
  · rw [htree]
    simp [scenarioTree, srcDirNode, targetDirNode, mainTxtNode, outBinNode,
      write_content, writeChildren, fileEntryText, scenarioReader]

/-- Claim C1, witness: the included scenario file passes inclusion, by the
amended theorem applied at its node. -/
theorem c1_exclusion_amended_witness :
    should_include_file matcherScenario mainTxtNode.path = Except.ok true :=
  c1_exclusion_amended.1 fsScenario [] matcherScenario 1000000 1000 100
    mainTxtNode
    (by
      have htree : scan_directory_lazy fsScenario [] matcherScenario
          1000000 1000 100 = scenarioTree := rfl
      rw [htree]
      exact InTree.child srcDirNode scenarioTree
        (List.mem_cons_self _ _)
        (InTree.child mainTxtNode srcDirNode
          (List.mem_singleton_self _) InTree.refl))
    rfl

/-! ## Content materializer lemmas -/

theorem strConcat_append (a b : List String) :
    strConcat (a ++ b) = strConcat a ++ strConcat b := by
  induction a with
  | nil => simp [strConcat]
  | cons s rest ih => simp [strConcat, ih, String.append_assoc]

theorem writeChildren_characterization (reader : List String → Option String) :
    ∀ (cs : List FileNodeLazy),
      (∀ c ∈ cs, write_content c reader =
        strConcat (((contentFiles c).filter (fun x => x.has_content)).map
          (fileEntryText reader))) →
      writeChildren cs reader =
        strConcat (((contentFilesList cs).filter (fun x => x.has_content)).map
          (fileEntryText reader)) := by
  intro cs
  induction cs with
  | nil =>
    intro _
    simp [writeChildren, contentFilesList, strConcat]
  | cons c rest ih =>
    intro hall
    rw [writeChildren, contentFilesList]
    rw [List.filter_append, List.map_append, strConcat_append]
    rw [hall c (by simp), ih (fun x hx => hall x (by simp [hx]))]

theorem write_content_characterization :
    ∀ (k : Nat) (n : FileNodeLazy) (reader : List String → Option String),
      sizeOf n ≤ k →
      write_content n reader =
        strConcat (((contentFiles n).filter (fun x => x.has_content)).map
          (fileEntryText reader)) := by
  intro k
  induction k using Nat.strong_induction_on with
  | _ k ih =>
    intro n reader hsz
    have hchild : ∀ c ∈ n.children, write_content c reader =
        strConcat (((contentFiles c).filter (fun x => x.has_content)).map
          (fileEntryText reader)) := by
      intro c hc
      have h1 : sizeOf c < sizeOf n :=
        lt_of_lt_of_le (List.sizeOf_lt_of_mem hc) (by cases n; simp; omega)
      exact ih (sizeOf c) (lt_of_lt_of_le h1 hsz) c reader (le_refl _)
    cases htype : n.node_type with
    | File =>
      cases hhc : n.has_content with
      | true =>
        rw [write_content, contentFiles]
        simp [htype, hhc, strConcat]
      | false =>
        rw [write_content, contentFiles]
        simp [htype, hhc, strConcat]
    | Directory =>
      rw [write_content, contentFiles]
      simp only [htype]
      simp only [reduceCtorEq, false_and, if_false, if_true, reduceIte]
      exact writeChildren_characterization reader n.children hchild
    | Symlink =>
      rw [write_content, contentFiles]
      simp [htype, strConcat]

/-- Claim C9: the content walk emits exactly, in depth-first order, one
block per file node whose has-content flag is set — the relative-path
header, the fixed-width separator and the text (or the truncation notice
over the 100000-byte content threshold, or the read-error placeholder) —
and directory and symlink nodes themselves emit nothing. -/
theorem c9_content_materializer (n : FileNodeLazy)
    (reader : List String → Option String) :
    write_content n reader =
      strConcat (((contentFiles n).filter (fun x => x.has_content)).map
        (fileEntryText reader)) :=
  write_content_characterization (sizeOf n) n reader (le_refl _)

/-! ## Ancestor-chain lemmas -/

theorem pre_antisymm (a b : List String) (h1 : a <+: b) (h2 : b <+: a) :
    a = b :=
  h1.eq_of_length (le_antisymm h1.length_le h2.length_le)

theorem dropLast_isPre (l : List String) : l.dropLast <+: l :=
  List.dropLast_prefix l

theorem dedupSeen_subset (seen : List (List String)) :
    ∀ (l : List (List String)) (x), x ∈ dedupSeen seen l → x ∈ l := by
  intro l
  induction l generalizing seen with
  | nil => intro x hx; simp [dedupSeen] at hx
  | cons a t ih =>
    intro x hx
    unfold dedupSeen at hx
    split at hx
    · exact List.mem_cons_of_mem _ (ih seen x hx)
    · rcases List.mem_cons.mp hx with hxa | hxt
      · simp [hxa]
      · exact List.mem_cons_of_mem _ (ih _ x hxt)

theorem dedupKeepFirst_subset (l : List (List String)) (x : List String)
    (h : x ∈ dedupKeepFirst l) : x ∈ l :=
  dedupSeen_subset [] l x h

theorem fmInsert_entries (m : List (List String × List (List String)))
    (k v : List String)
    (hm : ∀ e ∈ m, ∀ p ∈ e.2, p ≠ [] ∧ p.dropLast = e.1)
    (hv : v ≠ [] ∧ v.dropLast = k) :
    ∀ e ∈ fmInsert m k v, ∀ p ∈ e.2, p ≠ [] ∧ p.dropLast = e.1 := by
  induction m with
  | nil =>
    intro e he p hp
    simp only [fmInsert, List.mem_singleton] at he
    subst he
    simp only [List.mem_singleton] at hp
    subst hp
    exact hv
  | cons kv rest ih =>
    intro e he p hp
    cases kv with
    | mk k2 vs =>
      unfold fmInsert at he
      split at he
      case isTrue hkk =>
        rcases List.mem_cons.mp he with hee | hee
        · subst hee
          rcases List.mem_append.mp hp with hpv | hpv
          · exact hm (k2, vs) (by simp) p hpv
          · simp only [List.mem_singleton] at hpv
            subst hpv
            rw [hkk]
            exact hv
        · exact hm e (by simp [hee]) p hp
      case isFalse hkk =>
        rcases List.mem_cons.mp he with hee | hee
        · subst hee
          exact hm (k2, vs) (by simp) p hp
        · exact ih (fun e2 he2 => hm e2 (by simp [he2])) e hee p hp

theorem buildFileMap_entries (paths : List (List String)) :
    ∀ e ∈ buildFileMap paths, ∀ p ∈ e.2, p ≠ [] ∧ p.dropLast = e.1 := by
  have aux : ∀ (ps : List (List String))
      (acc : List (List String × List (List String))),
      (∀ e ∈ acc, ∀ p ∈ e.2, p ≠ [] ∧ p.dropLast = e.1) →
      ∀ e ∈ ps.foldl
        (fun m p =>
          match parentOf p with
          | some k => fmInsert m k p
          | none => m) acc,
        ∀ p ∈ e.2, p ≠ [] ∧ p.dropLast = e.1 := by
    intro ps
    induction ps with
    | nil => intro acc hacc; exact hacc
    | cons q rest ih =>
      intro acc hacc
      simp only [List.foldl_cons]
      cases hq : parentOf q with
      | none =>
        exact ih acc hacc
      | some k =>
        refine ih _ (fmInsert_entries acc k q hacc ?_)
        unfold parentOf at hq
        cases q with
        | nil => cases hq
        | cons a t =>
          simp only [Option.some.injEq] at hq
          exact ⟨by simp, hq⟩
  intro e he
  exact aux paths [] (by simp) e he

theorem members_props (fm : List (List String × List (List String)))
    (hfm : ∀ e ∈ fm, ∀ p ∈ e.2, p ≠ [] ∧ p.dropLast = e.1)
    (current p : List String)
    (hp : p ∈ (lookupAssoc fm current).getD []) :
    p ≠ [] ∧ p.dropLast = current := by
  cases hlook : lookupAssoc fm current with
  | none => rw [hlook] at hp; simp at hp
  | some ps =>
    rw [hlook] at hp
    exact hfm (current, ps) (lookupAssoc_mem fm current ps hlook) p hp

theorem build_ancestors (fs : List FsEntry)
    (fn : List (List String × FileNodeLazy))
    (fm : List (List String × List (List String)))
    (σ : List (List String) → List (List String))
    (hfn : ∀ p x, lookupAssoc fn p = some x →
      x.node_type = FileNodeType.File ∧ x.children = [] ∧ x.path = p)
    (hfm : ∀ e ∈ fm, ∀ p ∈ e.2, p ≠ [] ∧ p.dropLast = e.1)
    (hσ : ∀ (l : List (List String)) (x : List String), x ∈ σ l → x ∈ l) :
    ∀ (fuel : Nat) (current : List String) (n : FileNodeLazy),
      InTree n (build_lazy_directory_tree fs fn fm σ fuel current) →
      current <+: n.path ∧
      (∀ q, current <+: q → q <+: n.path → q ≠ n.path →
        ∃ d, InTree d (build_lazy_directory_tree fs fn fm σ fuel current) ∧
          d.path = q ∧ d.node_type = FileNodeType.Directory) := by
  intro fuel
  induction fuel with
  | zero =>
    intro current n h
    have hn : n = build_lazy_directory_tree fs fn fm σ 0 current :=
      InTree_leaf n _ h rfl
    constructor
    · rw [hn]
      exact List.prefix_refl _
    · intro q h1 h2 h3
      exfalso
      apply h3
      rw [hn] at h2 ⊢
      exact (pre_antisymm current q h1 h2).symm
  | succ f ih =>
    intro current n h
    cases h with
    | refl =>
      constructor
      · exact List.prefix_refl _
      · intro q h1 h2 h3
        exact absurd (pre_antisymm q _ h2 h1) h3
    | child c t hm hsub =>
      have hcL : c ∈ sortChildren _ := hm
      rw [(sortChildren_perm _).mem_iff] at hcL
      rcases List.mem_append.mp hcL with hcf | hcd
      · rcases List.mem_filterMap.mp hcf with ⟨p, hpmem, hpeq⟩
        split at hpeq
        case isFalse => cases hpeq
        case isTrue hisf =>
          have hprops := hfn p c hpeq
          have hpar := members_props fm hfm current p hpmem
          have hnc : n = c := InTree_leaf n c hsub hprops.2.1
          subst hnc
          have hpath : n.path = p := hprops.2.2
          have hplen : p.length = current.length + 1 := by
            have hl : p.dropLast.length = p.length - 1 := List.length_dropLast p
            rw [hpar.2] at hl
            have hne : p.length ≠ 0 := by
              intro hz
              exact hpar.1 (List.eq_nil_of_length_eq_zero hz)
            omega
          constructor
          · rw [hpath, ← hpar.2]
            exact dropLast_isPre p
          · intro q h1 h2 h3
            rw [hpath] at h2 h3
            have hqlen : q.length < p.length := by
              rcases lt_or_eq_of_le h2.length_le with hlt | heq
              · exact hlt
              · exact absurd (h2.eq_of_length heq) h3
            have hqc : q = current := by
              have hle : q.length ≤ current.length := by omega
              exact (h1.eq_of_length (le_antisymm h1.length_le hle)).symm
            subst hqc
            exact ⟨build_lazy_directory_tree fs fn fm σ (f + 1) q,
              InTree.refl, rfl,
              (build_node_type fs fn fm σ (f + 1) q).1⟩
      · rcases List.mem_map.mp hcd with ⟨s, hsmem, hceq⟩
        have hsmem2 := dedupKeepFirst_subset _ s (hσ _ s hsmem)
        have hspar : s ≠ [] ∧ s.dropLast = current := by
          rcases List.mem_append.mp hsmem2 with hsm | hsk
          · exact members_props fm hfm current s (List.mem_filter.mp hsm).1
          · have hpred := (List.mem_filter.mp hsk).2
            simp only [Bool.and_eq_true, Bool.not_eq_true',
              decide_eq_true_eq] at hpred
            refine ⟨?_, hpred.1.2⟩
            intro hz
            rw [hz] at hpred
            simp at hpred
        have hih := ih s n (by rw [← hceq] at hsub; exact hsub)
        have hcs : current <+: s := by
          rw [← hspar.2]
          exact dropLast_isPre s
        have hslen : s.length = current.length + 1 := by
          have hl : s.dropLast.length = s.length - 1 := List.length_dropLast s
          rw [hspar.2] at hl
          have hne : s.length ≠ 0 := by
            intro hz
            exact hspar.1 (List.eq_nil_of_length_eq_zero hz)
          omega
        constructor
        · exact hcs.trans hih.1
        · intro q h1 h2 h3
          rcases le_total q.length s.length with hle | hle
          · have hqs : q <+: s := List.prefix_of_prefix_length_le h2 hih.1 hle
            by_cases hq_eq : q = s
            · subst hq_eq
              refine ⟨c, InTree.child c _ hm InTree.refl, ?_, ?_⟩
              · rw [← hceq]
                exact (build_node_type fs fn fm σ f q).2.1
              · rw [← hceq]
                exact (build_node_type fs fn fm σ f q).1
            · have hqlen : q.length < s.length :=
                lt_of_le_of_ne hqs.length_le
                  (fun heq => hq_eq (hqs.eq_of_length heq))
              have hqc : q = current := by
                have hle2 : q.length ≤ current.length := by omega
                exact (h1.eq_of_length (le_antisymm h1.length_le hle2)).symm
              subst hqc
              exact ⟨build_lazy_directory_tree fs fn fm σ (f + 1) q,
                InTree.refl, rfl,
                (build_node_type fs fn fm σ (f + 1) q).1⟩
          · have hsq : s <+: q := List.prefix_of_prefix_length_le hih.1 h2 hle
            rcases hih.2 q hsq h2 h3 with ⟨d, hd, hdp, hdt⟩
            refine ⟨d, InTree.child c _ hm ?_, hdp, hdt⟩
            rw [← hceq]
            exact hd

/-- Claim C6: every ancestor directory of a file node of the scanned tree,
from the scan root down to the file, appears as a directory node of the
tree (patterns are never consulted while building, so this holds even for
ancestors an exclude pattern would reject). -/
theorem c6_ancestors_present (fs : List FsEntry) (root : List String)
    (m : PatternMatcher) (mfs maxf maxd : Nat) (n : FileNodeLazy)
    (q : List String)
    (h : InTree n (scan_directory_lazy fs root m mfs maxf maxd))
    (_hfile : n.node_type = FileNodeType.File)
    (h1 : root <+: q) (h2 : q <+: n.path) (h3 : q ≠ n.path) :
    ∃ d, InTree d (scan_directory_lazy fs root m mfs maxf maxd) ∧
      d.path = q ∧ d.node_type = FileNodeType.Directory := by
  have hfn : ∀ p x,
      lookupAssoc (scanFileNodes fs root m mfs maxf maxd) p = some x →
      x.node_type = FileNodeType.File ∧ x.children = [] ∧ x.path = p := by
    intro p x hx
    have hp := process_ok_props fs root m mfs p x
      (scanFileNodes_ok fs root m mfs maxf maxd p x hx)
    exact ⟨hp.1, hp.2.1, hp.2.2.2.1⟩
  exact (build_ancestors fs _ _ id hfn
    (buildFileMap_entries (scanPaths fs root maxf maxd))
    (fun l x hx => hx) _ root n h).2 q h1 h2 h3

/-- Claim C6, witness: in the scenario tree, the ancestor `src` of
`src/main.txt` is present as a directory node. -/
theorem c6_ancestors_present_witness :
    ∃ d, InTree d (scan_directory_lazy fsScenario [] matcherScenario
        1000000 1000 100) ∧
      d.path = ["src"] ∧ d.node_type = FileNodeType.Directory :=
  c6_ancestors_present fsScenario [] matcherScenario 1000000 1000 100 mainTxtNode ["src"]
    (by
      have htree : scan_directory_lazy fsScenario [] matcherScenario
          1000000 1000 100 = scenarioTree := rfl
      rw [htree]
      exact InTree.child srcDirNode scenarioTree
        (List.mem_cons_self _ _)
        (InTree.child mainTxtNode srcDirNode
          (List.mem_singleton_self _) InTree.refl))
    rfl
    List.nil_prefix
    ⟨["main.txt"], rfl⟩
    (by decide)

/-! ## Determinism lemmas -/

theorem dedupSeen_mem (seen : List (List String)) (l : List (List String))
    (x : List String) :
    x ∈ dedupSeen seen l ↔ (x ∈ l ∧ x ∉ seen) := by
  induction l generalizing seen with
  | nil => simp [dedupSeen]
  | cons a t ih =>
    unfold dedupSeen
    split
    case isTrue hseen =>
      rw [ih seen]
      constructor
      · rintro ⟨hx, hns⟩
        exact ⟨List.mem_cons_of_mem _ hx, hns⟩
      · rintro ⟨hx, hns⟩
        rcases List.mem_cons.mp hx with hxa | hxt
        · exact absurd (hxa ▸ hseen) hns
        · exact ⟨hxt, hns⟩
    case isFalse hseen =>
      constructor
      · intro hx
        rcases List.mem_cons.mp hx with hxa | hxt
        · exact ⟨by simp [hxa], by rw [hxa]; exact hseen⟩
        · rw [ih _] at hxt
          refine ⟨List.mem_cons_of_mem _ hxt.1, ?_⟩
          intro hxs
          exact hxt.2 (List.mem_cons_of_mem _ hxs)
      · rintro ⟨hx, hns⟩
        by_cases hxa : x = a
        · simp [hxa]
        · have hxt : x ∈ t := by
            rcases List.mem_cons.mp hx with h | h
            · exact absurd h hxa
            · exact h
          refine List.mem_cons_of_mem _ ((ih _).mpr ⟨hxt, ?_⟩)
          intro hxs
          rcases List.mem_cons.mp hxs with h | h
          · exact hxa h
          · exact hns h

theorem dedupSeen_nodup (seen : List (List String)) (l : List (List String)) :
    (dedupSeen seen l).Nodup := by
  induction l generalizing seen with
  | nil => simp [dedupSeen]
  | cons a t ih =>
    unfold dedupSeen
    split
    · exact ih seen
    · refine List.nodup_cons.mpr ⟨?_, ih (a :: seen)⟩
      intro hmem
      exact ((dedupSeen_mem (a :: seen) t a).mp hmem).2 (by simp)

theorem dedupKeepFirst_mem (l : List (List String)) (x : List String) :
    x ∈ dedupKeepFirst l ↔ x ∈ l := by
  unfold dedupKeepFirst
  rw [dedupSeen_mem]
  simp

theorem dedupKeepFirst_nodup (l : List (List String)) :
    (dedupKeepFirst l).Nodup := dedupSeen_nodup [] l

theorem dedupKeepFirst_perm_of_perm (l1 l2 : List (List String))
    (h : l1.Perm l2) : (dedupKeepFirst l1).Perm (dedupKeepFirst l2) := by
  rw [List.perm_ext_iff_of_nodup (dedupKeepFirst_nodup l1)
    (dedupKeepFirst_nodup l2)]
  intro a
  rw [dedupKeepFirst_mem, dedupKeepFirst_mem]
  exact ⟨fun hx => h.subset hx, fun hx => h.symm.subset hx⟩

theorem lastName_of_ne_nil (p : List String) (h : p ≠ []) :
    lastName p = p.getLast h := by
  unfold lastName
  rw [List.getLast?_eq_getLast p h]

theorem path_eq_of_parent_last (p q : List String)
    (hp : p ≠ []) (hq : q ≠ [])
    (hpar : p.dropLast = q.dropLast) (hlast : lastName p = lastName q) :
    p = q := by
  rw [lastName_of_ne_nil p hp, lastName_of_ne_nil q hq] at hlast
  have h1 := List.dropLast_append_getLast hp
  have h2 := List.dropLast_append_getLast hq
  rw [← h1, ← h2, hpar, hlast]

theorem subdirPaths_props (fs : List FsEntry)
    (fm : List (List String × List (List String)))
    (current : List String)
    (hfm : ∀ e ∈ fm, ∀ p ∈ e.2, p ≠ [] ∧ p.dropLast = e.1)
    (s : List String) (hs : s ∈ buildSubdirPaths fs fm current) :
    s ≠ [] ∧ s.dropLast = current := by
  unfold buildSubdirPaths at hs
  rw [dedupKeepFirst_mem] at hs
  rcases List.mem_append.mp hs with hsm | hsk
  · exact members_props fm hfm current s (List.mem_filter.mp hsm).1
  · have hpred := (List.mem_filter.mp hsk).2
    simp only [Bool.and_eq_true, Bool.not_eq_true', decide_eq_true_eq] at hpred
    refine ⟨?_, hpred.1.2⟩
    intro hz
    rw [hz] at hpred
    simp at hpred

theorem fileChildren_mem (fs : List FsEntry)
    (fn : List (List String × FileNodeLazy))
    (fm : List (List String × List (List String)))
    (current : List String) (x : FileNodeLazy)
    (hx : x ∈ buildFileChildren fs fn fm current) :
    ∃ p, p ∈ (lookupAssoc fm current).getD [] ∧ isFile fs p = true ∧
      lookupAssoc fn p = some x := by
  unfold buildFileChildren at hx
  rcases List.mem_filterMap.mp hx with ⟨p, hp, hpe⟩
  split at hpe
  case isTrue hf => exact ⟨p, hp, hf, hpe⟩
  case isFalse => cases hpe

theorem build_deterministic (fs : List FsEntry)
    (fn1 fn2 : List (List String × FileNodeLazy))
    (fm1 fm2 : List (List String × List (List String)))
    (σ1 σ2 : List (List String) → List (List String))
    (hfn : ∀ p, lookupAssoc fn1 p = lookupAssoc fn2 p)
    (hfm : ∀ p, lookupAssoc fm1 p = lookupAssoc fm2 p)
    (hkeys : (fm1.map Prod.fst).Perm (fm2.map Prod.fst))
    (hσ1 : ∀ l, (σ1 l).Perm l) (hσ2 : ∀ l, (σ2 l).Perm l)
    (hfnwf : ∀ p x, lookupAssoc fn1 p = some x →
      x.node_type = FileNodeType.File ∧ x.name = lastName p)
    (hfm1 : ∀ e ∈ fm1, ∀ p ∈ e.2, p ≠ [] ∧ p.dropLast = e.1) :
    ∀ (fuel : Nat) (current : List String),
      build_lazy_directory_tree fs fn1 fm1 σ1 fuel current =
      build_lazy_directory_tree fs fn2 fm2 σ2 fuel current := by
  intro fuel
  induction fuel with
  | zero => intro current; rfl
  | succ f ih =>
    intro current
    have hfc : buildFileChildren fs fn1 fm1 current =
        buildFileChildren fs fn2 fm2 current := by
      unfold buildFileChildren
      rw [hfm current]
      exact List.filterMap_congr
        (fun p _ => by by_cases hf : isFile fs p <;> simp [hf, hfn p])
    have hsdp : (buildSubdirPaths fs fm1 current).Perm
        (buildSubdirPaths fs fm2 current) := by
      unfold buildSubdirPaths
      apply dedupKeepFirst_perm_of_perm
      rw [hfm current]
      exact List.Perm.append_left _ (hkeys.filter _)
    have hsub1 : (σ1 (buildSubdirPaths fs fm1 current)).Perm
        (σ2 (buildSubdirPaths fs fm2 current)) :=
      ((hσ1 _).trans hsdp).trans (hσ2 _).symm
    have hchildren : (buildFileChildren fs fn1 fm1 current ++
        (σ1 (buildSubdirPaths fs fm1 current)).map
          (build_lazy_directory_tree fs fn1 fm1 σ1 f)).Perm
        (buildFileChildren fs fn2 fm2 current ++
        (σ2 (buildSubdirPaths fs fm2 current)).map
          (build_lazy_directory_tree fs fn2 fm2 σ2 f)) := by
      rw [← hfc]
      apply List.Perm.append_left
      have hmapeq : (σ2 (buildSubdirPaths fs fm2 current)).map
          (build_lazy_directory_tree fs fn2 fm2 σ2 f) =
          (σ2 (buildSubdirPaths fs fm2 current)).map
            (build_lazy_directory_tree fs fn1 fm1 σ1 f) :=
        List.map_congr_left (fun s _ => (ih s).symm)
      rw [hmapeq]
      exact hsub1.map _
    have hmemchar : ∀ x, x ∈ (buildFileChildren fs fn1 fm1 current ++
        (σ1 (buildSubdirPaths fs fm1 current)).map
          (build_lazy_directory_tree fs fn1 fm1 σ1 f)) →
        (∃ p, p ∈ (lookupAssoc fm1 current).getD [] ∧ isFile fs p = true ∧
          lookupAssoc fn1 p = some x) ∨
        (∃ s, s ∈ buildSubdirPaths fs fm1 current ∧
          x = build_lazy_directory_tree fs fn1 fm1 σ1 f s) := by
      intro x hx
      rcases List.mem_append.mp hx with hxf | hxd
      · exact Or.inl (fileChildren_mem fs fn1 fm1 current x hxf)
      · rcases List.mem_map.mp hxd with ⟨s, hsmem, hseq⟩
        exact Or.inr ⟨s, (hσ1 _).subset hsmem, hseq.symm⟩
    have hgood1 : ∀ x ∈ (buildFileChildren fs fn1 fm1 current ++
        (σ1 (buildSubdirPaths fs fm1 current)).map
          (build_lazy_directory_tree fs fn1 fm1 σ1 f)),
        x.node_type ≠ FileNodeType.Symlink := by
      intro x hx
      rcases hmemchar x hx with ⟨p, _, _, hp⟩ | ⟨s, _, hs⟩
      · rw [(hfnwf p x hp).1]
        simp
      · rw [hs, (build_node_type fs fn1 fm1 σ1 f s).1]
        simp
    have hgood2 : ∀ x ∈ (buildFileChildren fs fn2 fm2 current ++
        (σ2 (buildSubdirPaths fs fm2 current)).map
          (build_lazy_directory_tree fs fn2 fm2 σ2 f)),
        x.node_type ≠ FileNodeType.Symlink := by
      intro x hx
      exact hgood1 x (hchildren.symm.subset hx)
    have hanti : ∀ x ∈ sortChildren (buildFileChildren fs fn1 fm1 current ++
        (σ1 (buildSubdirPaths fs fm1 current)).map
          (build_lazy_directory_tree fs fn1 fm1 σ1 f)),
        ∀ y ∈ sortChildren (buildFileChildren fs fn1 fm1 current ++
        (σ1 (buildSubdirPaths fs fm1 current)).map
          (build_lazy_directory_tree fs fn1 fm1 σ1 f)),
        rankOf x = rankOf y → x.name = y.name → x = y := by
      intro x hx y hy hr hn
      rw [(sortChildren_perm _).mem_iff] at hx hy
      rcases hmemchar x hx with ⟨p1, hp1m, _, hp1⟩ | ⟨s1, hs1m, hs1⟩ <;>
        rcases hmemchar y hy with ⟨p2, hp2m, _, hp2⟩ | ⟨s2, hs2m, hs2⟩
      · have hx1 := hfnwf p1 x hp1
        have hy1 := hfnwf p2 y hp2
        have hpp1 := members_props fm1 hfm1 current p1 hp1m
        have hpp2 := members_props fm1 hfm1 current p2 hp2m
        have hpeq : p1 = p2 := path_eq_of_parent_last p1 p2 hpp1.1 hpp2.1
          (by rw [hpp1.2, hpp2.2])
          (by rw [← hx1.2, ← hy1.2, hn])
        rw [hpeq] at hp1
        rw [hp1] at hp2
        exact Option.some.inj hp2
      · exfalso
        have h1 := (hfnwf p1 x hp1).1
        have h2 := (build_node_type fs fn1 fm1 σ1 f s2).1
        rw [hs2] at hr
        unfold rankOf at hr
        rw [h1] at hr
        rw [h2] at hr
        simp at hr
      · exfalso
        have h1 := (hfnwf p2 y hp2).1
        have h2 := (build_node_type fs fn1 fm1 σ1 f s1).1
        rw [hs1] at hr
        unfold rankOf at hr
        rw [h1] at hr
        rw [h2] at hr
        simp at hr
      · have hps1 := subdirPaths_props fs fm1 current hfm1 s1 hs1m
        have hps2 := subdirPaths_props fs fm1 current hfm1 s2 hs2m
        have hn1 : x.name = lastName s1 := by
          rw [hs1]
          exact (build_node_type fs fn1 fm1 σ1 f s1).2.2.1
        have hn2 : y.name = lastName s2 := by
          rw [hs2]
          exact (build_node_type fs fn1 fm1 σ1 f s2).2.2.1
        have hseq : s1 = s2 := path_eq_of_parent_last s1 s2 hps1.1 hps2.1
          (by rw [hps1.2, hps2.2])
          (by rw [← hn1, ← hn2, hn])
        rw [hs1, hs2, hseq]
    refine congrArg (mkDirNode current) ?_
    exact sorted_childPair_unique _ _
      (((sortChildren_perm _).trans hchildren).trans (sortChildren_perm _).symm)
      (sortChildren_pairwise _ hgood1) (sortChildren_pairwise _ hgood2) hanti

/-- Claim C8: tree building plus rendering is deterministic.  Two builder
runs over the same metadata map and the same adjacency map (association
lists agreeing as maps, with arbitrarily permuted key order modelling hash
iteration, and arbitrary orderings of the subdirectory hash set) produce
byte-identical rendered tree text. -/
theorem c8_build_render_deterministic (fs : List FsEntry)
    (fn1 fn2 : List (List String × FileNodeLazy))
    (fm1 fm2 : List (List String × List (List String)))
    (σ1 σ2 : List (List String) → List (List String))
    (hfn : ∀ p, lookupAssoc fn1 p = lookupAssoc fn2 p)
    (hfm : ∀ p, lookupAssoc fm1 p = lookupAssoc fm2 p)
    (hkeys : (fm1.map Prod.fst).Perm (fm2.map Prod.fst))
    (hσ1 : ∀ l, (σ1 l).Perm l) (hσ2 : ∀ l, (σ2 l).Perm l)
    (hfnwf : ∀ p x, lookupAssoc fn1 p = some x →
      x.node_type = FileNodeType.File ∧ x.name = lastName p)
    (hfm1 : ∀ e ∈ fm1, ∀ p ∈ e.2, p ≠ [] ∧ p.dropLast = e.1)
    (fuel : Nat) (root : List String) :
    generate_tree_string_lazy
      (build_lazy_directory_tree fs fn1 fm1 σ1 fuel root) "" true =
    generate_tree_string_lazy
      (build_lazy_directory_tree fs fn2 fm2 σ2 fuel root) "" true :=
  congrArg (fun t => generate_tree_string_lazy t "" true)
    (build_deterministic fs fn1 fn2 fm1 fm2 σ1 σ2 hfn hfm hkeys hσ1 hσ2
      hfnwf hfm1 fuel root)

/-- Claim C8, witness: the concrete witness maps rendered with identity
versus reversed subdirectory iteration order give identical text. -/
theorem c8_build_render_deterministic_witness :
    generate_tree_string_lazy
      (build_lazy_directory_tree fsW fnW fmW id 3 []) "" true =
    generate_tree_string_lazy
      (build_lazy_directory_tree fsW fnW fmW List.reverse 3 []) "" true :=
  c8_build_render_deterministic fsW fnW fnW fmW fmW id List.reverse
    (fun _ => rfl) (fun _ => rfl) (List.Perm.refl _)
    (fun l => List.Perm.refl l) (fun l => l.reverse_perm)
    (by
      intro p x h
      have hm := lookupAssoc_mem _ _ _ h
      simp only [fnW, List.mem_singleton, Prod.mk.injEq] at hm
      obtain ⟨hp, hx⟩ := hm
      subst hp
      subst hx
      exact ⟨rfl, rfl⟩)
    (by
      intro e he p hp
      simp only [fmW, List.mem_singleton] at he
      subst he
      simp only [List.mem_cons, List.not_mem_nil, or_false] at hp
      rcases hp with hp | hp | hp
      all_goals subst hp
      all_goals exact ⟨by simp, rfl⟩)
    3 []
